import Mathlib

/-!
# A verification of the StudyAssist text-analysis pipeline

This file embeds the core text-analysis pipeline of `app.py` (clean →
segment → tokenize → frequency-score → summarize / generate questions)
as executable Lean definitions over `List Char` / `String`, and proves
the specified properties about them.

Modelling notes:
* Python `str` is a sequence of Unicode code points; it is modelled as
  `List Char` (wrapped in `String` at the interface).
* Python `int` is modelled as `Int`; Python slice semantics
  (`xs[:k]` with negative `k`) are modelled explicitly.
* Python's `list.sort` / `sorted` / `heapq.nlargest` are stable; a stable
  sort over a total preorder is a uniquely determined function, modelled
  here by a stable insertion sort.
* `str.lower()` is modelled character-wise on ASCII (`A`–`Z` ↦ `a`–`z`).
  The handful of non-ASCII code points that Python lowercases into ASCII
  (e.g. the Kelvin sign) are not modelled; for all other characters the
  lowering result lies outside the token alphabet `[a-zA-Z0-9']` either
  way, so tokenization is unaffected.
-/

/-- Python's whitespace predicate (`str.isspace` / `str.strip` / regex `\s`):
the space characters 0x09–0x0D, 0x1C–0x1F, 0x20, plus the Unicode
whitespace code points. -/
def isPyWs (c : Char) : Bool :=
  (9 ≤ c.toNat && c.toNat ≤ 13) || (28 ≤ c.toNat && c.toNat ≤ 32) ||
  c.toNat == 133 || c.toNat == 160 || c.toNat == 5760 ||
  (8192 ≤ c.toNat && c.toNat ≤ 8202) || c.toNat == 8232 || c.toNat == 8233 ||
  c.toNat == 8239 || c.toNat == 8287 || c.toNat == 12288

/-- The horizontal-whitespace character class `[ \t]` of `clean_text`. -/
def isHW (c : Char) : Bool := c == ' ' || c == '\t'

/-- Model of `text.replace("\r", "\n")` in `clean_text`. -/
def replCR (l : List Char) : List Char :=
  l.map (fun c => if c = '\r' then '\n' else c)

/-- State machine for `re.sub(r"\n{2,}", "\n", text)`: every maximal run of
newlines is emitted as a single newline (a run of length 1 is unchanged,
which is also a single newline).  The flag records whether the scanner is
inside a newline run whose newline has already been emitted. -/
def collapseNLAux : Bool → List Char → List Char
  | _, [] => []
  | inRun, c :: rest =>
    if c = '\n' then
      if inRun then collapseNLAux true rest
      else '\n' :: collapseNLAux true rest
    else c :: collapseNLAux false rest

/-- Model of `re.sub(r"\n{2,}", "\n", text)` in `clean_text`. -/
def collapseNL (l : List Char) : List Char := collapseNLAux false l

/-- Scanner state for `re.sub(r"[ \t]{2,}", " ", text)`: outside any
horizontal-whitespace run, after exactly one pending horizontal-whitespace
character `p` (not yet emitted, since a lone space/tab is left unchanged),
or inside a run of length ≥ 2 whose replacement space has been emitted. -/
inductive HWSt where
  | base : HWSt
  | pend (p : Char) : HWSt
  | run : HWSt

/-- State machine for `re.sub(r"[ \t]{2,}", " ", text)`: every maximal run
of two or more space/tab characters becomes a single `' '`; a lone
space/tab is left unchanged. -/
def collapseHWAux : HWSt → List Char → List Char
  | .base, [] => []
  | .pend p, [] => [p]
  | .run, [] => []
  | .base, c :: rest =>
    if isHW c then collapseHWAux (.pend c) rest
    else c :: collapseHWAux .base rest
  | .pend p, c :: rest =>
    if isHW c then ' ' :: collapseHWAux .run rest
    else p :: c :: collapseHWAux .base rest
  | .run, c :: rest =>
    if isHW c then collapseHWAux .run rest
    else c :: collapseHWAux .base rest

/-- Model of `re.sub(r"[ \t]{2,}", " ", text)` in `clean_text`. -/
def collapseHW (l : List Char) : List Char := collapseHWAux .base l

/-- Python `str.strip()`: drop whitespace from the right end (via reverse),
then from the left end. -/
def pyStrip (l : List Char) : List Char :=
  ((l.reverse.dropWhile isPyWs).reverse).dropWhile isPyWs

/-- Model of `clean_text` of `app.py` on the code-point list: replace `\r` by `\n`,
collapse newline runs, collapse horizontal-whitespace runs, strip. -/
def cleanTextL (l : List Char) : List Char :=
  pyStrip (collapseHW (collapseNL (replCR l)))

/-- Model of `clean_text` of `app.py`. -/
def clean_text (s : String) : String := ⟨cleanTextL s.data⟩

/-- State machine for `re.sub(r"\s+", " ", text)` in `split_sentences`:
every maximal whitespace run (of any length ≥ 1) becomes a single space. -/
def collapseWSAux : Bool → List Char → List Char
  | _, [] => []
  | inRun, c :: rest =>
    if isPyWs c then
      if inRun then collapseWSAux true rest
      else ' ' :: collapseWSAux true rest
    else c :: collapseWSAux false rest

/-- Model of `re.sub(r"\s+", " ", text)` in `split_sentences`. -/
def collapseWS (l : List Char) : List Char := collapseWSAux false l

/-- The sentence-terminal character class `[.!?]`. -/
def isTerminal (c : Char) : Bool := c == '.' || c == '!' || c == '?'

/-- Whether the last character consumed so far (head of the reversed
accumulator) is a sentence terminal. -/
def prevTerminal : List Char → Bool
  | [] => false
  | p :: _ => isTerminal p

/-- Model of `re.split(r"(?<=[.!?])\s+", text)` in `split_sentences`, specialised to
its actual input: `text` has just been whitespace-collapsed by
`re.sub(r"\s+", " ", ...)`, so every whitespace run is a single space and
each regex match is exactly one whitespace character preceded by a
sentence terminal.  The accumulator holds the current fragment reversed. -/
def sentSplitAux (acc : List Char) : List Char → List (List Char)
  | [] => [acc.reverse]
  | c :: rest =>
    if isPyWs c && prevTerminal acc then acc.reverse :: sentSplitAux [] rest
    else sentSplitAux (c :: acc) rest

/-- Model of `split_sentences` of `app.py` on the code-point list: collapse
whitespace and strip; on empty return `[]`; split after sentence
terminals; strip each fragment and keep those of length ≥ 25. -/
def split_sentencesL (l : List Char) : List (List Char) :=
  let t := pyStrip (collapseWS l)
  if t.isEmpty then []
  else ((sentSplitAux [] t).map pyStrip).filter (fun s => 25 ≤ s.length)

/-- Model of `split_sentences` of `app.py`. -/
def split_sentences (s : String) : List String :=
  (split_sentencesL s.data).map (fun l => ⟨l⟩)

/-- Character-wise model of Python `str.lower()` (see module notes). -/
def pyLower (c : Char) : Char :=
  if ('A' ≤ c && c ≤ 'Z') then Char.ofNat (c.toNat + 32) else c

/-- The token character class `[a-zA-Z0-9']` of `tokenize_words`. -/
def isWordChar (c : Char) : Bool :=
  ('a' ≤ c && c ≤ 'z') || ('A' ≤ c && c ≤ 'Z') ||
  ('0' ≤ c && c ≤ '9') || c == '\x27'

/-- Model of `re.findall(r"[a-zA-Z0-9']+", text)`: left-to-right maximal runs of
token characters.  The accumulator holds the current run reversed. -/
def tokenAux (cur : List Char) : List Char → List (List Char)
  | [] => if cur.isEmpty then [] else [cur.reverse]
  | c :: rest =>
    if isWordChar c then tokenAux (c :: cur) rest
    else if cur.isEmpty then tokenAux [] rest
    else cur.reverse :: tokenAux [] rest

/-- Model of `tokenize_words` of `app.py` on the code-point list. -/
def tokenizeL (l : List Char) : List (List Char) := tokenAux [] (l.map pyLower)

/-- Model of `tokenize_words` of `app.py`. -/
def tokenize_words (s : String) : List String :=
  (tokenizeL s.data).map (fun l => ⟨l⟩)

/-- The `STOPWORDS` set of `app.py`. -/
def STOPWORDS : List String :=
  ["a", "an", "and", "are", "as", "at", "be", "by", "for", "from", "has",
   "he", "in", "is", "it", "its", "of", "on", "or", "that", "the", "to",
   "was", "were", "will", "with", "you", "your", "we", "they", "them",
   "this", "those", "these", "i", "my", "our", "us", "not", "can", "could",
   "should", "would", "may", "might", "about", "into", "than", "then"]

/-- The frequency-table membership filter: not a stopword and length
strictly greater than `minLen` (2 for summarization, 3 for questions). -/
def isQualifying (minLen : Nat) (w : String) : Bool :=
  !(STOPWORDS.contains w) && minLen < w.length

/-- The token multiset underlying `freq` in `summarize_text`
(`Counter(w for w in words if w not in STOPWORDS and len(w) > 2)`).
A `Counter` is modelled by counting occurrences in this list; the
`Counter` is falsy exactly when this list is empty. -/
def sumFiltered (s : String) : List String :=
  (tokenize_words s).filter (isQualifying 2)

/-- The token multiset underlying `freq` in `generate_questions`
(`len(w) > 3` threshold). -/
def qFiltered (s : String) : List String :=
  (tokenize_words s).filter (isQualifying 3)

/-- Sentence score in `summarize_text`: the sum over the sentence's tokens
of their frequencies (`sum(freq[w] for w in s_words if w in freq)`; a
token absent from the table contributes 0, so the membership guard is
absorbed by the count). -/
def sentenceScore (freqSrc : List String) (sent : String) : Nat :=
  ((tokenize_words sent).map (fun w => freqSrc.count w)).sum

/-- The `scored` list of `summarize_text`:
`(score, idx, s)` for `idx, s in enumerate(sentences)`. -/
def scoreRows (freqSrc : List String) : Nat → List String → List (Nat × Nat × String)
  | _, [] => []
  | idx, s :: rest =>
    (sentenceScore freqSrc s, idx, s) :: scoreRows freqSrc (idx + 1) rest

/-- Stable descending insertion of `x` by `key`: `x` is placed before the
first element whose key is not strictly greater than `key x`. -/
def insDesc {α : Type} (key : α → Nat) (x : α) : List α → List α
  | [] => [x]
  | y :: ys => if key x < key y then y :: insDesc key x ys else x :: y :: ys

/-- Stable descending sort by `key`: the unique stable sort, as performed by
Python's `list.sort(reverse=True, key=...)` and `heapq.nlargest`. -/
def sortDesc {α : Type} (key : α → Nat) : List α → List α
  | [] => []
  | x :: xs => insDesc key x (sortDesc key xs)

/-- Stable ascending insertion of `x` by `key`. -/
def insAsc {α : Type} (key : α → Nat) (x : α) : List α → List α
  | [] => [x]
  | y :: ys => if key y < key x then y :: insAsc key x ys else x :: y :: ys

/-- Stable ascending sort by `key`, as performed by Python's `sorted(...,
key=...)`. -/
def sortAsc {α : Type} (key : α → Nat) : List α → List α
  | [] => []
  | x :: xs => insAsc key x (sortAsc key xs)

/-- Python slice `xs[:k]` for an arbitrary integer `k`: a nonnegative `k`
takes the first `k` elements; a negative `k` drops the last `-k`. -/
def pySliceTo {α : Type} (k : Int) (l : List α) : List α :=
  if k < 0 then l.take ((l.length : Int) + k).toNat else l.take k.toNat

/-- The fallback of `summarize_text` when no sentence survives. -/
def noTextMsg : String :=
  "Could not extract enough text to summarise. Try a different file or a clearer PDF."

/-- The fallback of `summarize_text` when the frequency table is empty. -/
def tooLimitedMsg : String :=
  "Text was extracted, but it was too limited to summarise."

/-- Model of `summarize_text` of `app.py`. -/
def summarize_text (s : String) (num_sentences : Int := 6) : String :=
  let sentences := split_sentences s
  if sentences.isEmpty then noTextMsg
  else
    let freqSrc := sumFiltered s
    if freqSrc.isEmpty then tooLimitedMsg
    else
      let scored := scoreRows freqSrc 0 sentences
      let sorted := sortDesc (fun r => r.1) scored
      let top := pySliceTo (min num_sentences (scored.length : Int)) sorted
      let top_sorted := sortAsc (fun r => r.2.1) top
      String.intercalate " " (top_sorted.map (fun r => r.2.2))

/-- First-occurrence deduplication: the iteration order of a `Counter`'s
keys (dict insertion order). -/
def dedupAux (seen : List String) : List String → List String
  | [] => []
  | w :: rest =>
    if seen.contains w then dedupAux seen rest
    else w :: dedupAux (w :: seen) rest

/-- Model of `Counter(toks).most_common(n)`: the distinct tokens in first-occurrence
order, stably sorted by descending count, with their counts; first `n`. -/
def mostCommon (toks : List String) (n : Nat) : List (String × Nat) :=
  (sortDesc (fun it => it.2) ((dedupAux [] toks).map (fun w => (w, toks.count w)))).take n

/-- The five question templates of `generate_questions`, as functions
substituting the key term. -/
def templates : List (String → String) :=
  [fun t => "Define: \x27" ++ t ++ "\x27.",
   fun t => "Explain the importance of \x27" ++ t ++ "\x27 in the topic.",
   fun t => "Give one example of how \x27" ++ t ++ "\x27 is used.",
   fun t => "What are the benefits or risks related to \x27" ++ t ++ "\x27?",
   fun t => "How does \x27" ++ t ++ "\x27 impact users or systems?"]

/-- Model of `templates[i % len(templates)].format(term=term)`. -/
def applyTemplate (i : Nat) (w : String) : String :=
  (templates.getD (i % templates.length) (fun t => t)) w

/-- The question-building loop of `generate_questions`: walk the key
terms; break once `len(questions) >= max_q`; otherwise append the next
template instantiation.  `qcount` is `len(questions)` and `t_i` the
template counter. -/
def qLoop (max_q : Int) : List String → Nat → Nat → List String
  | [], _, _ => []
  | w :: rest, qcount, t_i =>
    if max_q ≤ (qcount : Int) then []
    else applyTemplate t_i w :: qLoop max_q rest (qcount + 1) (t_i + 1)

/-- The fixed 3-item generic fallback of `generate_questions`. -/
def fallbackQuestions : List String :=
  ["Summarise the main idea of the document in your own words.",
   "List 3 key points from the document.",
   "What problem is being discussed and what solution is suggested?"]

/-- Model of `key_terms` of `generate_questions`:
`[w for w, _ in freq.most_common(10)]`. -/
def keyTerms (s : String) : List String :=
  (mostCommon (qFiltered s) 10).map (fun it => it.1)

/-- Model of `generate_questions` of `app.py`. -/
def generate_questions (s : String) (max_q : Int := 6) : List String :=
  let qs := qLoop max_q (keyTerms s) 0 0
  if qs.isEmpty then fallbackQuestions else qs

/-- Modelled from the spec (§4.3): the spec-side token character class
`[a-z0-9']` ("produce every maximal run of characters matching
`[a-z0-9']`"). -/
def isSpecWordChar (c : Char) : Bool :=
  ('a' ≤ c && c ≤ 'z') || ('0' ≤ c && c ≤ '9') || c == '\x27'

/-- Modelled from the spec (§4.3): split a character list at every
separator character (a character for which `q` holds), dropping the
separators; adjacent separators yield empty pieces. -/
def splitSep (q : Char → Bool) : List Char → List (List Char)
  | [] => [[]]
  | c :: rest =>
    if q c then [] :: splitSep q rest
    else (c :: (splitSep q rest).headD []) :: (splitSep q rest).tail

/-- Modelled from the spec (§4.3): lowercase the input, then the tokens
are the non-empty pieces between separator characters — "non-matching
characters act as separators and are dropped", so each surviving piece is
a maximal run of token characters. -/
def tokenizeSpec (s : String) : List String :=
  ((splitSep (fun c => !(isSpecWordChar c)) (s.data.map pyLower)).filter
    (fun g => !g.isEmpty)).map (fun l => ⟨l⟩)


/-! ## Helper lemmas -/

theorem char_toNat_ofNat {n : Nat} (h : n.isValidChar) :
    (Char.ofNat n).toNat = n := by
  rw [Char.ofNat, dif_pos h]
  simp [Char.ofNatAux, Char.toNat, UInt32.toNat]

theorem char_le_iff {a b : Char} : a ≤ b ↔ a.toNat ≤ b.toNat := by
  rw [Char.le_def]
  exact ⟨fun h => h, fun h => h⟩

/-- The question loop emits nothing when the budget is already exhausted. -/
theorem qLoop_of_nonpos {max_q : Int} (terms : List String) (qcount t_i : Nat)
    (h : max_q ≤ (qcount : Int)) : qLoop max_q terms qcount t_i = [] := by
  cases terms with
  | nil => rfl
  | cons w rest => rw [qLoop, if_pos h]

/-- Lemma: `generate_questions` with an empty qualifying-token stream falls back. -/
theorem generate_questions_of_qFiltered_nil {s : String} (maxq : Int)
    (h : qFiltered s = []) : generate_questions s maxq = fallbackQuestions := by
  have hk : keyTerms s = [] := by
    rw [keyTerms, mostCommon, h]
    rfl
  rw [generate_questions, hk]
  rfl

/-! ## C10 -/

/-- C10: for every text with at least one surviving sentence and a
non-empty frequency table, `summarize_text` with `num_sentences = 0`
returns the empty string (the slice selects zero sentences and the join
of nothing is `""`), not either fallback message. -/
theorem summarize_text_zero (s : String)
    (h1 : split_sentences s ≠ []) (h2 : sumFiltered s ≠ []) :
    summarize_text s 0 = "" := by
  rw [summarize_text]
  rw [if_neg (by simp [h1]), if_neg (by simp [h2])]
  have key : ∀ (f sents : List String),
      String.intercalate " " ((sortAsc (fun r : Nat × Nat × String => r.2.1)
        (pySliceTo (min 0 ((scoreRows f 0 sents).length : Int))
          (sortDesc (fun r : Nat × Nat × String => r.1) (scoreRows f 0 sents)))).map
        (fun r => r.2.2)) = "" := by
    intro f sents
    rw [min_eq_left (Int.ofNat_nonneg _)]
    rfl
  exact key _ _

/-- Witness for C10 at a concrete text on the success path. -/
theorem summarize_text_zero_witness :
    split_sentences "Red apple banana cherry fruits. Red apple banana cherry fruits." ≠ [] ∧
    sumFiltered "Red apple banana cherry fruits. Red apple banana cherry fruits." ≠ [] ∧
    summarize_text "Red apple banana cherry fruits. Red apple banana cherry fruits." 0 = "" :=
  ⟨by decide, by decide,
    summarize_text_zero "Red apple banana cherry fruits. Red apple banana cherry fruits."
      (by decide) (by decide)⟩

/-! ## C9 -/

/-- C9: `generate_questions` never returns an empty list: whenever the
generated-question list is empty — in particular whenever `max_q ≤ 0`,
even though qualifying key terms may exist — the fixed 3-item generic
fallback list is returned (whose length 3 then exceeds `max_q`). -/
theorem generate_questions_ne_nil : ∀ (s : String) (maxq : Int),
    generate_questions s maxq ≠ [] ∧
    (maxq ≤ 0 → generate_questions s maxq = fallbackQuestions ∧
      maxq < (fallbackQuestions.length : Int)) := by
  intro s maxq
  constructor
  · rw [generate_questions]
    split
    · decide
    · next h => exact List.isEmpty_eq_false.mp (by simpa using h)
  · intro h
    have hq : qLoop maxq (keyTerms s) 0 0 = [] :=
      qLoop_of_nonpos _ 0 0 (by exact_mod_cast h)
    rw [generate_questions, hq]
    exact ⟨rfl, by exact lt_of_le_of_lt h (by decide)⟩

/-- Witness for C9: a text with a qualifying key term and `max_q = 0`
still yields the 3-question fallback, exceeding `max_q`. -/
theorem generate_questions_ne_nil_witness :
    generate_questions "python python python python python the and of." 0 ≠ [] ∧
    (generate_questions "python python python python python the and of." 0 = fallbackQuestions ∧
      (0 : Int) < (fallbackQuestions.length : Int)) :=
  ⟨(generate_questions_ne_nil "python python python python python the and of." 0).1,
    (generate_questions_ne_nil "python python python python python the and of." 0).2 (by decide)⟩

/-! ## C3 (corrected) -/

/-- Counterexample to C3 as stated: the empty text has fewer than one
qualifying token, yet `summarize_text` returns the "could not extract
enough text" fallback, not the "too limited to summarise" one (the
no-sentence check fires first). -/
theorem summarize_text_empty_counterexample :
    sumFiltered "" = [] ∧
    summarize_text "" 6 = noTextMsg ∧
    summarize_text "" 6 ≠ tooLimitedMsg := by
  refine ⟨by decide, by decide, by decide⟩

/-- C3 (amended): for a text that yields at least one segmented sentence
but no qualifying summarization token, `summarize_text` returns the
fixed "too limited to summarise" fallback; and for a text with no
qualifying question token, `generate_questions` returns the fixed 3-item
generic fallback (with no sentence requirement).  Both functions are
total Lean functions, so neither raises. -/
theorem summarize_generate_fallbacks (s : String) (n maxq : Int) :
    (split_sentences s ≠ [] → sumFiltered s = [] →
      summarize_text s n = tooLimitedMsg) ∧
    (qFiltered s = [] → generate_questions s maxq = fallbackQuestions) := by
  constructor
  · intro h1 h2
    rw [summarize_text, if_neg (by simp [h1]), if_pos (by simp [h2])]
  · intro h
    exact generate_questions_of_qFiltered_nil maxq h

/-- Witness for C3 (amended): a 36-character sentence of two-letter
tokens has a surviving sentence but no qualifying token. -/
theorem summarize_generate_fallbacks_witness :
    summarize_text "aa bb cc dd ee ff gg hh ii jj kk ll." 6 = tooLimitedMsg ∧
    generate_questions "aa bb cc dd ee ff gg hh ii jj kk ll." 6 = fallbackQuestions :=
  ⟨(summarize_generate_fallbacks "aa bb cc dd ee ff gg hh ii jj kk ll." 6 6).1
      (by decide) (by decide),
    (summarize_generate_fallbacks "aa bb cc dd ee ff gg hh ii jj kk ll." 6 6).2 (by decide)⟩

/-! ## C8 -/

/-- Deduplication of a constant list whose element was already seen. -/
theorem dedupAux_replicate_of_seen {w : String} {seen : List String}
    (h : seen.contains w = true) :
    ∀ k, dedupAux seen (List.replicate k w) = [] := by
  intro k
  induction k with
  | zero => rfl
  | succ k ih => rw [List.replicate_succ, dedupAux, if_pos h]; exact ih

/-- Deduplication of a non-empty constant list. -/
theorem dedupAux_replicate {w : String} {k : Nat} (hk : k ≠ 0) :
    dedupAux [] (List.replicate k w) = [w] := by
  cases k with
  | zero => exact absurd rfl hk
  | succ k =>
    rw [List.replicate_succ, dedupAux, if_neg (by simp)]
    rw [dedupAux_replicate_of_seen (by simp)]

/-- The question built at position `i` of the loop uses the term at
position `i` and the template counter `ti + i`. -/
theorem qLoop_getElem? (maxq : Int) :
    ∀ (terms : List String) (qc ti i : Nat) (q : String),
      (qLoop maxq terms qc ti)[i]? = some q →
      ∃ w', terms[i]? = some w' ∧ q = applyTemplate (ti + i) w' := by
  intro terms
  induction terms with
  | nil => intro qc ti i q h; simp [qLoop] at h
  | cons w rest ih =>
    intro qc ti i q h
    rw [qLoop] at h
    by_cases hb : maxq ≤ (qc : Int)
    · rw [if_pos hb] at h; simp at h
    · rw [if_neg hb] at h
      cases i with
      | zero =>
        simp only [List.getElem?_cons_zero, Option.some.injEq] at h
        exact ⟨w, by simp, by rw [← h, Nat.add_zero]⟩
      | succ i =>
        simp only [List.getElem?_cons_succ] at h
        obtain ⟨w', hw', hq⟩ := ih (qc + 1) (ti + 1) i q h
        exact ⟨w', by simpa using hw', by rw [hq]; congr 1; omega⟩

/-- Reducing the template counter modulo the number of templates does not
change the instantiated template. -/
theorem applyTemplate_mod (i : Nat) (w : String) :
    applyTemplate i w = applyTemplate (i % 5) w := by
  have h5 : templates.length = 5 := rfl
  rw [applyTemplate, applyTemplate, h5]
  have : i % 5 % 5 = i % 5 := by omega
  rw [this]

/-- C8: on a text whose qualifying question tokens are `k ≥ 10` copies of
one word of length ≥ 5, `generate_questions` returns exactly one
question, instantiated from the first template ("Define: '<word>'.");
and in general the question at 0-based position `i` of the generated
list uses template `i % 5` on the key term at position `i`. -/
theorem generate_questions_single_term (s : String) (w : String) (k : Nat)
    (hq : qFiltered s = List.replicate k w) (hk : 10 ≤ k) (_hw : 5 ≤ w.length) :
    generate_questions s 6 = ["Define: \x27" ++ w ++ "\x27."] ∧
    (∀ (maxq : Int) (i : Nat) (q : String),
      (qLoop maxq (keyTerms s) 0 0)[i]? = some q →
      ∃ w', (keyTerms s)[i]? = some w' ∧ q = applyTemplate (i % 5) w') := by
  have hterms : keyTerms s = [w] := by
    rw [keyTerms, mostCommon, hq, dedupAux_replicate (by omega)]
    rfl
  constructor
  · rw [generate_questions, hterms]
    rfl
  · intro maxq i q h
    obtain ⟨w', hw', hq'⟩ := qLoop_getElem? maxq (keyTerms s) 0 0 i q h
    exact ⟨w', hw', by rwa [Nat.zero_add, applyTemplate_mod] at hq'⟩

/-- Witness for C8: ten copies of "python" amid stopwords yield the single
question "Define: 'python'.". -/
theorem generate_questions_single_term_witness :
    generate_questions
      "python python python python python python python python python python the and of" 6 =
      ["Define: \x27python\x27."] :=
  (generate_questions_single_term
    "python python python python python python python python python python the and of"
    "python" 10 (by decide) (by decide) (by decide)).1

/-! ## C7 -/

/-- After the modelled lowering, the code's token class `[a-zA-Z0-9']` and
the spec's token class `[a-z0-9']` agree. -/
theorem pyLower_word_eq_spec (c : Char) :
    isWordChar (pyLower c) = isSpecWordChar (pyLower c) := by
  unfold pyLower isWordChar isSpecWordChar
  split
  · rename_i h
    simp only [Bool.and_eq_true, decide_eq_true_eq] at h
    obtain ⟨h1, h2⟩ := h
    rw [char_le_iff] at h1 h2
    have hA : ('A' : Char).toNat = 65 := by decide
    have hZ : ('Z' : Char).toNat = 90 := by decide
    rw [hA] at h1; rw [hZ] at h2
    have hval : (c.toNat + 32).isValidChar := by left; omega
    have htn : (Char.ofNat (c.toNat + 32)).toNat = c.toNat + 32 := char_toNat_ofNat hval
    have p1 : 'a' ≤ Char.ofNat (c.toNat + 32) := by
      rw [char_le_iff, htn]
      have : ('a' : Char).toNat = 97 := by decide
      omega
    have p2 : Char.ofNat (c.toNat + 32) ≤ 'z' := by
      rw [char_le_iff, htn]
      have : ('z' : Char).toNat = 122 := by decide
      omega
    simp [p1, p2]
  · rename_i h
    simp only [Bool.not_eq_true] at h
    simp [h]

/-- Splitting never produces an empty piece list. -/
theorem splitSep_ne_nil (q : Char → Bool) (l : List Char) : splitSep q l ≠ [] := by
  cases l with
  | nil => simp [splitSep]
  | cons c rest => rw [splitSep]; split <;> simp

/-- A piece list is its head piece followed by its tail. -/
theorem splitSep_eq_headD_cons_tail (q : Char → Bool) (l : List Char) :
    splitSep q l = (splitSep q l).headD [] :: (splitSep q l).tail := by
  cases h : splitSep q l with
  | nil => exact absurd h (splitSep_ne_nil q l)
  | cons g gs => rfl

/-- The run accumulator of `tokenAux` against the spec splitter: the runs
are exactly the non-empty pieces, with the pending run prepended to the
first piece. -/
theorem tokenAux_eq_splitSep (l : List Char) : ∀ cur : List Char,
    tokenAux cur l =
      ((cur.reverse ++ (splitSep (fun c => !isWordChar c) l).headD []) ::
        (splitSep (fun c => !isWordChar c) l).tail).filter (fun g => !g.isEmpty) := by
  induction l with
  | nil =>
    intro cur
    cases cur with
    | nil => rfl
    | cons d t =>
      have hne : (t.reverse ++ [d]).isEmpty = false := by simp [List.isEmpty_iff]
      simp [tokenAux, splitSep, List.filter, hne]
  | cons c rest ih =>
    intro cur
    by_cases hc : isWordChar c = true
    · rw [tokenAux, if_pos hc, ih (c :: cur)]
      rw [splitSep, if_neg (by simp [hc])]
      simp [List.append_assoc]
    · rw [tokenAux, if_neg hc]
      have hsp : splitSep (fun x => !isWordChar x) (c :: rest) =
          [] :: splitSep (fun x => !isWordChar x) rest := by
        rw [splitSep, if_pos (by simp [hc])]
      rw [hsp]
      have hrec := splitSep_eq_headD_cons_tail (fun x => !isWordChar x) rest
      cases cur with
      | nil =>
        rw [ih []]
        simp only [List.reverse_nil, List.nil_append]
        rw [← hrec]
        simp [List.filter]
      | cons d t =>
        have hne : (t.reverse ++ [d]).isEmpty = false := by simp [List.isEmpty_iff]
        rw [ih []]
        simp only [List.reverse_nil, List.nil_append]
        rw [← hrec]
        simp [List.filter, hne]

/-- Pointwise-equal separator predicates split identically. -/
theorem splitSep_congr {q q' : Char → Bool} : ∀ {l : List Char},
    (∀ c ∈ l, q c = q' c) → splitSep q l = splitSep q' l := by
  intro l
  induction l with
  | nil => intro _; rfl
  | cons c rest ih =>
    intro h
    have hc : q c = q' c := h c (by simp)
    have hr := ih (fun d hd => h d (by simp [hd]))
    rw [splitSep, splitSep, hc, hr]

/-- C7: `tokenize_words` lowercases its input and returns every maximal
run of characters in `[a-z0-9']` as one token, in left-to-right order,
other characters acting as dropped separators — stated as equality with
the spec-side tokenizer (split at separators, keep non-empty pieces) —
and the concrete examples: `"Hello, World! 123"` tokenizes to
`["hello", "world", "123"]`, and the empty input yields `[]`. -/
theorem tokenize_words_spec :
    (∀ s : String, tokenize_words s = tokenizeSpec s) ∧
    tokenize_words "Hello, World! 123" = ["hello", "world", "123"] ∧
    tokenize_words "" = [] := by
  refine ⟨fun s => ?_, by decide, by decide⟩
  rw [tokenize_words, tokenizeSpec, tokenizeL]
  rw [tokenAux_eq_splitSep (s.data.map pyLower) []]
  simp only [List.reverse_nil, List.nil_append]
  rw [← splitSep_eq_headD_cons_tail]
  congr 2
  apply splitSep_congr
  intro c hc
  obtain ⟨d, _, rfl⟩ := List.mem_map.mp hc
  rw [pyLower_word_eq_spec]

/-! ## C6 -/

/-- The head of a `dropWhile` result fails the predicate. -/
theorem head?_dropWhile_eq_false {p : Char → Bool} :
    ∀ {l : List Char} {c : Char}, (l.dropWhile p).head? = some c → p c = false := by
  intro l
  induction l with
  | nil => intro c h; simp at h
  | cons d rest ih =>
    intro c h
    rw [List.dropWhile_cons] at h
    by_cases hd : p d = true
    · rw [if_pos hd] at h; exact ih h
    · rw [if_neg hd] at h
      simp only [List.head?_cons, Option.some.injEq] at h
      subst h
      simpa using hd

/-- Lemma: `dropWhile` only removes a prefix, so a non-empty result keeps the
last element. -/
theorem getLast?_dropWhile {p : Char → Bool} :
    ∀ {l : List Char}, l.dropWhile p ≠ [] → (l.dropWhile p).getLast? = l.getLast? := by
  intro l
  induction l with
  | nil => intro h; simp at h
  | cons d rest ih =>
    intro h
    rw [List.dropWhile_cons] at h ⊢
    by_cases hd : p d = true
    · rw [if_pos hd] at h ⊢
      have hrest : rest ≠ [] := by
        intro he; rw [he] at h; simp at h
      rw [ih h]
      cases rest with
      | nil => exact absurd rfl hrest
      | cons e t => simp
    · rw [if_neg hd]

/-- The first character of a stripped string is not whitespace. -/
theorem pyStrip_head {l : List Char} {c : Char}
    (h : (pyStrip l).head? = some c) : isPyWs c = false :=
  head?_dropWhile_eq_false h

/-- The last character of a stripped string is not whitespace. -/
theorem pyStrip_getLast {l : List Char} {c : Char}
    (h : (pyStrip l).getLast? = some c) : isPyWs c = false := by
  have hne : pyStrip l ≠ [] := by
    intro he; rw [he] at h; simp at h
  rw [pyStrip] at h hne
  rw [getLast?_dropWhile hne] at h
  rw [List.getLast?_reverse] at h
  exact head?_dropWhile_eq_false h

/-- C6: if some trimmed fragment of the sentence split has length ≥ 25,
then `split_sentences` returns a non-empty list, every returned sentence
has length ≥ 25 and neither leading nor trailing whitespace, and the
returned list is a sublist (in original document order) of the full
trimmed-fragment list. -/
theorem split_sentences_spec (s : String)
    (h : ∃ f ∈ (sentSplitAux [] (pyStrip (collapseWS s.data))).map pyStrip,
      25 ≤ f.length) :
    split_sentences s ≠ [] ∧
    (∀ t ∈ split_sentences s, 25 ≤ t.length ∧
      (∀ c, t.data.head? = some c → isPyWs c = false) ∧
      (∀ c, t.data.getLast? = some c → isPyWs c = false)) ∧
    (split_sentencesL s.data).Sublist
      ((sentSplitAux [] (pyStrip (collapseWS s.data))).map pyStrip) := by
  obtain ⟨f, hf, hflen⟩ := h
  have ht : (pyStrip (collapseWS s.data)).isEmpty = false := by
    rw [List.isEmpty_eq_false]
    intro he
    rw [he] at hf
    have : f = pyStrip [] := by simpa [sentSplitAux] using hf
    rw [this] at hflen
    simp [pyStrip] at hflen
  have hL : split_sentencesL s.data =
      ((sentSplitAux [] (pyStrip (collapseWS s.data))).map pyStrip).filter
        (fun x => 25 ≤ x.length) := by
    rw [split_sentencesL]
    simp only [ht, Bool.false_eq_true, if_false]
  refine ⟨?_, ?_, ?_⟩
  · rw [split_sentences, hL]
    intro he
    rw [List.map_eq_nil_iff, List.filter_eq_nil_iff] at he
    have hcon := he f hf
    simp only [decide_eq_true_eq] at hcon
    exact hcon hflen
  · intro t ht'
    rw [split_sentences, hL] at ht'
    obtain ⟨f', hf', rfl⟩ := List.mem_map.mp ht'
    obtain ⟨hmem, hlen⟩ := List.mem_filter.mp hf'
    obtain ⟨f0, _, rfl⟩ := List.mem_map.mp hmem
    refine ⟨by simpa using hlen, ?_, ?_⟩
    · intro c hc; exact pyStrip_head hc
    · intro c hc; exact pyStrip_getLast hc
  · rw [hL]
    exact List.filter_sublist _

/-- Witness for C6 at a concrete two-sentence text (one fragment short,
one long). -/
theorem split_sentences_spec_witness :
    split_sentences "Too short. The quick brown fox jumps over the lazy dog." ≠ [] ∧
    (split_sentencesL "Too short. The quick brown fox jumps over the lazy dog.".data).Sublist
      ((sentSplitAux [] (pyStrip
        (collapseWS "Too short. The quick brown fox jumps over the lazy dog.".data))).map
        pyStrip) :=
  ⟨(split_sentences_spec "Too short. The quick brown fox jumps over the lazy dog."
      (by decide)).1,
    (split_sentences_spec "Too short. The quick brown fox jumps over the lazy dog."
      (by decide)).2.2⟩

/-! ## Whitespace machinery for C4 and C5 -/

/-- Lemma: `replCR` never produces a carriage return. -/
theorem replCR_mem {l : List Char} {c : Char} (h : c ∈ replCR l) : c ≠ '\r' := by
  obtain ⟨d, _, hd⟩ := List.mem_map.mp h
  by_cases hdr : d = '\r'
  · rw [if_pos hdr] at hd
    rw [← hd]; decide
  · rw [if_neg hdr] at hd
    rw [← hd]; exact hdr

/-- The newline collapse only emits characters of its input or newlines. -/
theorem collapseNLAux_mem {c : Char} :
    ∀ (l : List Char) (b : Bool), c ∈ collapseNLAux b l → c ∈ l ∨ c = '\n' := by
  intro l
  induction l with
  | nil => intro b h; simp [collapseNLAux] at h
  | cons d rest ih =>
    intro b h
    rw [collapseNLAux] at h
    by_cases hd : d = '\n'
    · rw [if_pos hd] at h
      cases b with
      | true =>
        rcases ih true h with h' | h'
        · exact Or.inl (List.mem_cons_of_mem d h')
        · exact Or.inr h'
      | false =>
        simp only [Bool.false_eq_true, if_false, List.mem_cons] at h
        rcases h with h | h
        · exact Or.inr h
        · rcases ih true h with h' | h'
          · exact Or.inl (List.mem_cons_of_mem d h')
          · exact Or.inr h'
    · rw [if_neg hd] at h
      rcases List.mem_cons.mp h with h | h
      · exact Or.inl (h ▸ List.mem_cons_self d rest)
      · rcases ih false h with h' | h'
        · exact Or.inl (List.mem_cons_of_mem d h')
        · exact Or.inr h'

/-- After a newline has been emitted for the current run, the next
emitted character is not a newline. -/
theorem collapseNLAux_true_head :
    ∀ (l : List Char) (c : Char), (collapseNLAux true l).head? = some c → c ≠ '\n' := by
  intro l
  induction l with
  | nil => intro c h; simp [collapseNLAux] at h
  | cons d rest ih =>
    intro c h
    rw [collapseNLAux] at h
    by_cases hd : d = '\n'
    · rw [if_pos hd] at h
      exact ih c h
    · rw [if_neg hd] at h
      simp only [List.head?_cons, Option.some.injEq] at h
      exact h ▸ hd

/-- The newline collapse leaves no two adjacent newlines. -/
theorem collapseNLAux_chain' :
    ∀ (l : List Char) (b : Bool),
      List.Chain' (fun a b => ¬(a = '\n' ∧ b = '\n')) (collapseNLAux b l) := by
  intro l
  induction l with
  | nil => intro b; simp [collapseNLAux]
  | cons d rest ih =>
    intro b
    rw [collapseNLAux]
    by_cases hd : d = '\n'
    · rw [if_pos hd]
      cases b with
      | true => exact ih true
      | false =>
        simp only [Bool.false_eq_true, if_false]
        rw [List.chain'_cons']
        refine ⟨?_, ih true⟩
        intro y hy
        intro hcon
        exact collapseNLAux_true_head rest y hy hcon.2
    · rw [if_neg hd]
      rw [List.chain'_cons']
      refine ⟨?_, ih false⟩
      intro y _ hcon
      exact hd hcon.1

/-- On input with no two adjacent newlines the newline collapse is the
identity (state `false`; in state `true` the head must not be a newline). -/
theorem collapseNLAux_eq_self :
    ∀ l : List Char, List.Chain' (fun a b => ¬(a = '\n' ∧ b = '\n')) l →
      collapseNLAux false l = l ∧
      ((∀ c, l.head? = some c → c ≠ '\n') → collapseNLAux true l = l) := by
  intro l
  induction l with
  | nil => exact fun _ => ⟨rfl, fun _ => rfl⟩
  | cons d rest ih =>
    intro hch
    obtain ⟨hhd, htl⟩ := List.chain'_cons'.mp hch
    obtain ⟨ih1, ih2⟩ := ih htl
    constructor
    · rw [collapseNLAux]
      by_cases hd : d = '\n'
      · rw [if_pos hd]
        simp only [Bool.false_eq_true, if_false]
        have : collapseNLAux true rest = rest := by
          apply ih2
          intro c hc hcn
          exact hhd c hc ⟨hd, hcn⟩
        rw [this, hd]
      · rw [if_neg hd, ih1]
    · intro hhead
      rw [collapseNLAux]
      have hd : ¬ d = '\n' := hhead d rfl
      rw [if_neg hd, ih1]

/-- The horizontal-whitespace collapse only emits spaces, input
characters, or the pending character of its entry state. -/
theorem collapseHWAux_mem {c : Char} :
    ∀ (l : List Char) (st : HWSt), c ∈ collapseHWAux st l →
      c ∈ l ∨ c = ' ' ∨ (∃ p, st = HWSt.pend p ∧ c = p) := by
  intro l
  induction l with
  | nil =>
    intro st h
    cases st with
    | base => simp [collapseHWAux] at h
    | pend p =>
      simp only [collapseHWAux, List.mem_singleton] at h
      exact Or.inr (Or.inr ⟨p, rfl, h⟩)
    | run => simp [collapseHWAux] at h
  | cons d rest ih =>
    intro st h
    cases st with
    | base =>
      rw [collapseHWAux] at h
      by_cases hd : isHW d = true
      · rw [if_pos hd] at h
        rcases ih (HWSt.pend d) h with h' | h' | ⟨p, hp, hc⟩
        · exact Or.inl (List.mem_cons_of_mem d h')
        · exact Or.inr (Or.inl h')
        · cases hp
          exact Or.inl (hc ▸ List.mem_cons_self d rest)
      · rw [if_neg hd] at h
        rcases List.mem_cons.mp h with h | h
        · exact Or.inl (h ▸ List.mem_cons_self d rest)
        · rcases ih HWSt.base h with h' | h' | ⟨p, hp, _⟩
          · exact Or.inl (List.mem_cons_of_mem d h')
          · exact Or.inr (Or.inl h')
          · cases hp
    | pend p =>
      rw [collapseHWAux] at h
      by_cases hd : isHW d = true
      · rw [if_pos hd] at h
        rcases List.mem_cons.mp h with h | h
        · exact Or.inr (Or.inl h)
        · rcases ih HWSt.run h with h' | h' | ⟨q, hq, _⟩
          · exact Or.inl (List.mem_cons_of_mem d h')
          · exact Or.inr (Or.inl h')
          · cases hq
      · rw [if_neg hd] at h
        rcases List.mem_cons.mp h with h | h
        · exact Or.inr (Or.inr ⟨p, rfl, h⟩)
        · rcases List.mem_cons.mp h with h | h
          · exact Or.inl (h ▸ List.mem_cons_self d rest)
          · rcases ih HWSt.base h with h' | h' | ⟨q, hq, _⟩
            · exact Or.inl (List.mem_cons_of_mem d h')
            · exact Or.inr (Or.inl h')
            · cases hq
    | run =>
      rw [collapseHWAux] at h
      by_cases hd : isHW d = true
      · rw [if_pos hd] at h
        rcases ih HWSt.run h with h' | h' | ⟨q, hq, _⟩
        · exact Or.inl (List.mem_cons_of_mem d h')
        · exact Or.inr (Or.inl h')
        · cases hq
      · rw [if_neg hd] at h
        rcases List.mem_cons.mp h with h | h
        · exact Or.inl (h ▸ List.mem_cons_self d rest)
        · rcases ih HWSt.base h with h' | h' | ⟨q, hq, _⟩
          · exact Or.inl (List.mem_cons_of_mem d h')
          · exact Or.inr (Or.inl h')
          · cases hq

/-- In the `run` state the next emitted character is not horizontal
whitespace (the rest of the run is skipped). -/
theorem collapseHWAux_run_head :
    ∀ (l : List Char) (c : Char),
      (collapseHWAux HWSt.run l).head? = some c → isHW c = false := by
  intro l
  induction l with
  | nil => intro c h; simp [collapseHWAux] at h
  | cons d rest ih =>
    intro c h
    rw [collapseHWAux] at h
    by_cases hd : isHW d = true
    · rw [if_pos hd] at h
      exact ih c h
    · rw [if_neg hd] at h
      simp only [List.head?_cons, Option.some.injEq] at h
      rw [← h]
      simpa using hd

/-- In the `base` state the first emitted character is horizontal
whitespace or the input's first character. -/
theorem collapseHWAux_base_head :
    ∀ (l : List Char) (c : Char), (collapseHWAux HWSt.base l).head? = some c →
      isHW c = true ∨ l.head? = some c := by
  intro l
  induction l with
  | nil => intro c h; simp [collapseHWAux] at h
  | cons d rest ih =>
    intro c h
    rw [collapseHWAux] at h
    by_cases hd : isHW d = true
    · rw [if_pos hd] at h
      cases rest with
      | nil =>
        simp only [collapseHWAux, List.head?_cons, Option.some.injEq] at h
        exact Or.inl (h ▸ hd)
      | cons e t =>
        rw [collapseHWAux] at h
        by_cases he : isHW e = true
        · rw [if_pos he] at h
          simp only [List.head?_cons, Option.some.injEq] at h
          exact Or.inl (by rw [← h]; decide)
        · rw [if_neg he] at h
          simp only [List.head?_cons, Option.some.injEq] at h
          exact Or.inl (h ▸ hd)
    · rw [if_neg hd] at h
      simp only [List.head?_cons, Option.some.injEq] at h
      exact Or.inr (by simp [h])

/-- The horizontal-whitespace collapse leaves no two adjacent
space/tab characters, from any entry state. -/
theorem collapseHWAux_chain'_hw :
    ∀ l : List Char,
      List.Chain' (fun a b => ¬(isHW a = true ∧ isHW b = true)) (collapseHWAux HWSt.base l) ∧
      (∀ p, List.Chain' (fun a b => ¬(isHW a = true ∧ isHW b = true))
        (collapseHWAux (HWSt.pend p) l)) ∧
      List.Chain' (fun a b => ¬(isHW a = true ∧ isHW b = true)) (collapseHWAux HWSt.run l) := by
  intro l
  induction l with
  | nil => exact ⟨by simp [collapseHWAux], fun p => by simp [collapseHWAux], by simp [collapseHWAux]⟩
  | cons d rest ih =>
    obtain ⟨ih1, ih2, ih3⟩ := ih
    have hbase : ∀ (e : Char), isHW e = false →
        List.Chain' (fun a b => ¬(isHW a = true ∧ isHW b = true))
          (e :: collapseHWAux HWSt.base rest) := by
      intro e he
      rw [List.chain'_cons']
      exact ⟨fun y _ hcon => by rw [he] at hcon; exact absurd hcon.1 (by simp), ih1⟩
    refine ⟨?_, ?_, ?_⟩
    · rw [collapseHWAux]
      by_cases hd : isHW d = true
      · rw [if_pos hd]; exact ih2 d
      · rw [if_neg hd]
        exact hbase d (by simpa using hd)
    · intro p
      rw [collapseHWAux]
      by_cases hd : isHW d = true
      · rw [if_pos hd]
        rw [List.chain'_cons']
        refine ⟨?_, ih3⟩
        intro y hy hcon
        exact absurd hcon.2 (by simp [collapseHWAux_run_head rest y hy])
      · rw [if_neg hd]
        rw [List.chain'_cons']
        refine ⟨?_, hbase d (by simpa using hd)⟩
        intro y hy hcon
        simp only [List.head?_cons, Option.mem_def, Option.some.injEq] at hy
        rw [← hy] at hcon
        exact absurd hcon.2 (by simpa using hd)
    · rw [collapseHWAux]
      by_cases hd : isHW d = true
      · rw [if_pos hd]; exact ih3
      · rw [if_neg hd]
        exact hbase d (by simpa using hd)

/-- The horizontal-whitespace collapse preserves the absence of adjacent
newline pairs (replaced runs leave a non-newline space in place). -/
theorem collapseHWAux_chain'_nl :
    ∀ l : List Char, List.Chain' (fun a b => ¬(a = '\n' ∧ b = '\n')) l →
      List.Chain' (fun a b => ¬(a = '\n' ∧ b = '\n')) (collapseHWAux HWSt.base l) ∧
      (∀ p, isHW p = true →
        List.Chain' (fun a b => ¬(a = '\n' ∧ b = '\n')) (collapseHWAux (HWSt.pend p) l)) ∧
      List.Chain' (fun a b => ¬(a = '\n' ∧ b = '\n')) (collapseHWAux HWSt.run l) := by
  intro l
  induction l with
  | nil =>
    intro _
    exact ⟨by simp [collapseHWAux], fun p _ => by simp [collapseHWAux], by simp [collapseHWAux]⟩
  | cons d rest ih =>
    intro hch
    obtain ⟨hhd, htl⟩ := List.chain'_cons'.mp hch
    obtain ⟨ih1, ih2, ih3⟩ := ih htl
    have hbase : List.Chain' (fun a b => ¬(a = '\n' ∧ b = '\n'))
        (d :: collapseHWAux HWSt.base rest) := by
      rw [List.chain'_cons']
      refine ⟨?_, ih1⟩
      intro y hy hcon
      rcases collapseHWAux_base_head rest y hy with h' | h'
      · rw [hcon.2] at h'
        exact absurd h' (by decide)
      · exact hhd y h' hcon
    refine ⟨?_, ?_, ?_⟩
    · rw [collapseHWAux]
      by_cases hd : isHW d = true
      · rw [if_pos hd]
        exact ih2 d hd
      · rw [if_neg hd]
        exact hbase
    · intro p hp
      rw [collapseHWAux]
      by_cases hd : isHW d = true
      · rw [if_pos hd]
        rw [List.chain'_cons']
        refine ⟨?_, ih3⟩
        intro y _ hcon
        exact absurd hcon.1 (by decide)
      · rw [if_neg hd]
        rw [List.chain'_cons']
        refine ⟨?_, hbase⟩
        intro y hy hcon
        rw [hcon.1] at hp
        exact absurd hp (by decide)
    · rw [collapseHWAux]
      by_cases hd : isHW d = true
      · rw [if_pos hd]
        exact ih3
      · rw [if_neg hd]
        exact hbase

/-- On input with no two adjacent space/tab characters the
horizontal-whitespace collapse is the identity. -/
theorem collapseHWAux_eq_self :
    ∀ l : List Char, List.Chain' (fun a b => ¬(isHW a = true ∧ isHW b = true)) l →
      collapseHWAux HWSt.base l = l ∧
      (∀ p, (∀ c, l.head? = some c → isHW c = false) →
        collapseHWAux (HWSt.pend p) l = p :: l) := by
  intro l
  induction l with
  | nil => exact fun _ => ⟨rfl, fun p _ => rfl⟩
  | cons d rest ih =>
    intro hch
    obtain ⟨hhd, htl⟩ := List.chain'_cons'.mp hch
    obtain ⟨ih1, ih2⟩ := ih htl
    constructor
    · rw [collapseHWAux]
      by_cases hd : isHW d = true
      · rw [if_pos hd]
        apply ih2
        intro c hc
        have := hhd c hc
        rw [not_and] at this
        simpa using this hd
      · rw [if_neg hd, ih1]
    · intro p hhead
      rw [collapseHWAux]
      have hd : isHW d = false := hhead d rfl
      rw [if_neg (by simp [hd]), ih1]

/-- Stripping returns a contiguous segment of its input. -/
theorem pyStrip_infix (l : List Char) : ∃ u v, u ++ pyStrip l ++ v = l := by
  obtain ⟨t, ht⟩ := List.dropWhile_suffix (l := l.reverse) isPyWs
  obtain ⟨u, hu⟩ := List.dropWhile_suffix
    (l := (l.reverse.dropWhile isPyWs).reverse) isPyWs
  refine ⟨u, t.reverse, ?_⟩
  have hl : l = (l.reverse.dropWhile isPyWs).reverse ++ t.reverse := by
    have h2 := congrArg List.reverse ht
    rw [List.reverse_append, List.reverse_reverse] at h2
    exact h2.symm
  rw [pyStrip, hu]
  exact hl.symm

/-- Characters of the stripped string are characters of the input. -/
theorem pyStrip_mem {l : List Char} {c : Char} (h : c ∈ pyStrip l) : c ∈ l := by
  obtain ⟨u, v, huv⟩ := pyStrip_infix l
  rw [← huv]
  simp [h]

/-- Lemma: `dropWhile` is the identity when the first element already fails the
predicate. -/
theorem dropWhile_eq_self_of_head {p : Char → Bool} {l : List Char}
    (h : ∀ c, l.head? = some c → p c = false) : l.dropWhile p = l := by
  cases l with
  | nil => rfl
  | cons d rest =>
    rw [List.dropWhile_cons, if_neg]
    simp [h d rfl]

/-- Stripping is the identity on a string with no whitespace at either
end. -/
theorem pyStrip_eq_self {l : List Char}
    (hhead : ∀ c, l.head? = some c → isPyWs c = false)
    (hlast : ∀ c, l.getLast? = some c → isPyWs c = false) : pyStrip l = l := by
  rw [pyStrip]
  have hrev : l.reverse.dropWhile isPyWs = l.reverse := by
    apply dropWhile_eq_self_of_head
    intro c hc
    rw [List.head?_reverse] at hc
    exact hlast c hc
  rw [hrev, List.reverse_reverse]
  exact dropWhile_eq_self_of_head hhead

/-- The invariants of `cleanTextL`: no adjacent newline pair, no adjacent
horizontal-whitespace pair, no whitespace at either end, and no carriage
return at all. -/
theorem cleanTextL_props (x : List Char) :
    List.Chain' (fun a b => ¬(a = '\n' ∧ b = '\n')) (cleanTextL x) ∧
    List.Chain' (fun a b => ¬(isHW a = true ∧ isHW b = true)) (cleanTextL x) ∧
    (∀ c, (cleanTextL x).head? = some c → isPyWs c = false) ∧
    (∀ c, (cleanTextL x).getLast? = some c → isPyWs c = false) ∧
    (∀ c, c ∈ cleanTextL x → c ≠ '\r') := by
  have hnl0 : List.Chain' (fun a b => ¬(a = '\n' ∧ b = '\n'))
      (collapseNL (replCR x)) := collapseNLAux_chain' (replCR x) false
  have hnl : List.Chain' (fun a b => ¬(a = '\n' ∧ b = '\n'))
      (collapseHW (collapseNL (replCR x))) :=
    (collapseHWAux_chain'_nl (collapseNL (replCR x)) hnl0).1
  have hhw : List.Chain' (fun a b => ¬(isHW a = true ∧ isHW b = true))
      (collapseHW (collapseNL (replCR x))) :=
    (collapseHWAux_chain'_hw (collapseNL (replCR x))).1
  obtain ⟨u, v, huv⟩ := pyStrip_infix (collapseHW (collapseNL (replCR x)))
  refine ⟨?_, ?_, ?_, ?_, ?_⟩
  · exact List.Chain'.infix hnl ⟨u, v, huv⟩
  · exact List.Chain'.infix hhw ⟨u, v, huv⟩
  · intro c hc; exact pyStrip_head hc
  · intro c hc; exact pyStrip_getLast hc
  · intro c hc
    have hc2 := pyStrip_mem hc
    rcases collapseHWAux_mem (collapseNL (replCR x)) HWSt.base hc2 with h' | h' | ⟨p, hp, _⟩
    · rcases collapseNLAux_mem (replCR x) false h' with h'' | h''
      · exact replCR_mem h''
      · rw [h'']; decide
    · rw [h']; decide
    · cases hp

/-! ## C5 -/

/-- C5: for every input string, the output of `clean_text` satisfies the
CleanText invariant — no two adjacent newlines, no two adjacent
horizontal whitespace characters (space/tab), and no leading or trailing
whitespace — and empty input yields empty output. -/
theorem clean_text_invariant :
    (∀ s : String,
      List.Chain' (fun a b => ¬(a = '\n' ∧ b = '\n')) (clean_text s).data ∧
      List.Chain' (fun a b => ¬(isHW a = true ∧ isHW b = true)) (clean_text s).data ∧
      (∀ c, (clean_text s).data.head? = some c → isPyWs c = false) ∧
      (∀ c, (clean_text s).data.getLast? = some c → isPyWs c = false)) ∧
    clean_text "" = "" := by
  refine ⟨fun s => ?_, by decide⟩
  obtain ⟨h1, h2, h3, h4, _⟩ := cleanTextL_props s.data
  exact ⟨h1, h2, h3, h4⟩

/-! ## C4 -/

/-- C4: `clean_text` is idempotent: normalizing twice equals normalizing
once, for every input string. -/
theorem clean_text_idempotent (s : String) :
    clean_text (clean_text s) = clean_text s := by
  obtain ⟨hnl, hhw, hhead, hlast, hcr⟩ := cleanTextL_props s.data
  show (⟨cleanTextL (cleanTextL s.data)⟩ : String) = ⟨cleanTextL s.data⟩
  congr 1
  have hrepl : replCR (cleanTextL s.data) = cleanTextL s.data := by
    rw [replCR]
    have : List.map (fun c => if c = '\r' then '\n' else c) (cleanTextL s.data) =
        List.map id (cleanTextL s.data) := by
      apply List.map_congr_left
      intro a ha
      rw [if_neg (hcr a ha)]
      rfl
    rw [this, List.map_id]
  have hcoll : collapseNL (cleanTextL s.data) = cleanTextL s.data := by
    rw [collapseNL]
    exact (collapseNLAux_eq_self (cleanTextL s.data) hnl).1
  have hchw : collapseHW (cleanTextL s.data) = cleanTextL s.data := by
    rw [collapseHW]
    exact (collapseHWAux_eq_self (cleanTextL s.data) hhw).1
  have hstrip : pyStrip (cleanTextL s.data) = cleanTextL s.data :=
    pyStrip_eq_self hhead hlast
  calc cleanTextL (cleanTextL s.data)
      = pyStrip (collapseHW (collapseNL (replCR (cleanTextL s.data)))) := rfl
    _ = cleanTextL s.data := by rw [hrepl, hcoll, hchw, hstrip]

/-! ## Sorting machinery for C1 and C2 -/

/-- Descending insertion is a permutation of consing. -/
theorem insDesc_perm {α : Type} (key : α → Nat) (x : α) :
    ∀ l : List α, (insDesc key x l).Perm (x :: l) := by
  intro l
  induction l with
  | nil => exact List.Perm.refl _
  | cons y ys ih =>
    rw [insDesc]
    by_cases h : key x < key y
    · rw [if_pos h]
      exact (List.Perm.cons y ih).trans (List.Perm.swap x y ys)
    · rw [if_neg h]

/-- The stable descending sort is a permutation. -/
theorem sortDesc_perm {α : Type} (key : α → Nat) :
    ∀ l : List α, (sortDesc key l).Perm l := by
  intro l
  induction l with
  | nil => exact List.Perm.refl _
  | cons x xs ih =>
    rw [sortDesc]
    exact (insDesc_perm key x (sortDesc key xs)).trans (List.Perm.cons x ih)

/-- Ascending insertion is a permutation of consing. -/
theorem insAsc_perm {α : Type} (key : α → Nat) (x : α) :
    ∀ l : List α, (insAsc key x l).Perm (x :: l) := by
  intro l
  induction l with
  | nil => exact List.Perm.refl _
  | cons y ys ih =>
    rw [insAsc]
    by_cases h : key y < key x
    · rw [if_pos h]
      exact (List.Perm.cons y ih).trans (List.Perm.swap x y ys)
    · rw [if_neg h]

/-- The stable ascending sort is a permutation. -/
theorem sortAsc_perm {α : Type} (key : α → Nat) :
    ∀ l : List α, (sortAsc key l).Perm l := by
  intro l
  induction l with
  | nil => exact List.Perm.refl _
  | cons x xs ih =>
    rw [sortAsc]
    exact (insAsc_perm key x (sortAsc key xs)).trans (List.Perm.cons x ih)

/-- Stable descending insertion preserves the combined order invariant
(descending keys; on equal keys, ascending tags) when the inserted
element's tag is below every present tag. -/
theorem insDesc_pairwise {α : Type} (key tag : α → Nat) (x : α) :
    ∀ l : List α,
      l.Pairwise (fun a b => key b ≤ key a ∧ (key a = key b → tag a < tag b)) →
      (∀ y ∈ l, tag x < tag y) →
      (insDesc key x l).Pairwise
        (fun a b => key b ≤ key a ∧ (key a = key b → tag a < tag b)) := by
  intro l
  induction l with
  | nil => intro _ _; simp [insDesc]
  | cons y ys ih =>
    intro hl hx
    obtain ⟨hy, hys⟩ := List.pairwise_cons.mp hl
    rw [insDesc]
    by_cases h : key x < key y
    · rw [if_pos h]
      rw [List.pairwise_cons]
      constructor
      · intro z hz
        rcases List.mem_cons.mp ((insDesc_perm key x ys).mem_iff.mp hz) with hz' | hz'
        · rw [hz']
          exact ⟨Nat.le_of_lt h, fun he => absurd he.symm (Nat.ne_of_lt h)⟩
        · exact hy z hz'
      · exact ih hys (fun y' hy' => hx y' (List.mem_cons_of_mem y hy'))
    · rw [if_neg h]
      rw [List.pairwise_cons]
      constructor
      · intro z hz
        rcases List.mem_cons.mp hz with hz' | hz'
        · rw [hz']
          exact ⟨Nat.le_of_not_lt h, fun _ => hx y (List.mem_cons_self y ys)⟩
        · have hyz := hy z hz'
          exact ⟨Nat.le_trans hyz.1 (Nat.le_of_not_lt h),
            fun _ => hx z (List.mem_cons_of_mem y hz')⟩
      · exact hl

/-- The stable descending sort orders by descending key and, on equal
keys, by ascending tag, provided the input tags are strictly
increasing (stability). -/
theorem sortDesc_pairwise {α : Type} (key tag : α → Nat) :
    ∀ l : List α, l.Pairwise (fun a b => tag a < tag b) →
      (sortDesc key l).Pairwise
        (fun a b => key b ≤ key a ∧ (key a = key b → tag a < tag b)) := by
  intro l
  induction l with
  | nil => intro _; simp [sortDesc]
  | cons x xs ih =>
    intro h
    obtain ⟨hx, hxs⟩ := List.pairwise_cons.mp h
    rw [sortDesc]
    apply insDesc_pairwise
    · exact ih hxs
    · intro y hy
      exact hx y ((sortDesc_perm key xs).mem_iff.mp hy)

/-- Stable ascending insertion preserves the ascending-key invariant. -/
theorem insAsc_pairwise {α : Type} (key : α → Nat) (x : α) :
    ∀ l : List α, l.Pairwise (fun a b => key a ≤ key b) →
      (insAsc key x l).Pairwise (fun a b => key a ≤ key b) := by
  intro l
  induction l with
  | nil => intro _; simp [insAsc]
  | cons y ys ih =>
    intro hl
    obtain ⟨hy, hys⟩ := List.pairwise_cons.mp hl
    rw [insAsc]
    by_cases h : key y < key x
    · rw [if_pos h]
      rw [List.pairwise_cons]
      constructor
      · intro z hz
        rcases List.mem_cons.mp ((insAsc_perm key x ys).mem_iff.mp hz) with hz' | hz'
        · rw [hz']; exact Nat.le_of_lt h
        · exact hy z hz'
      · exact ih hys
    · rw [if_neg h]
      rw [List.pairwise_cons]
      constructor
      · intro z hz
        rcases List.mem_cons.mp hz with hz' | hz'
        · rw [hz']; exact Nat.le_of_not_lt h
        · exact Nat.le_trans (Nat.le_of_not_lt h) (hy z hz')
      · exact hl

/-- The stable ascending sort orders by ascending key. -/
theorem sortAsc_pairwise {α : Type} (key : α → Nat) :
    ∀ l : List α, (sortAsc key l).Pairwise (fun a b => key a ≤ key b) := by
  intro l
  induction l with
  | nil => simp [sortAsc]
  | cons x xs ih =>
    rw [sortAsc]
    exact insAsc_pairwise key x (sortAsc key xs) ih

/-- Every row produced from start index `k` has index at least `k`. -/
theorem scoreRows_mem_ge {f : List String} :
    ∀ (sents : List String) (k : Nat) (e : Nat × Nat × String),
      e ∈ scoreRows f k sents → k ≤ e.2.1 := by
  intro sents
  induction sents with
  | nil => intro k e h; simp [scoreRows] at h
  | cons s rest ih =>
    intro k e h
    rw [scoreRows] at h
    rcases List.mem_cons.mp h with h' | h'
    · rw [h']
    · exact Nat.le_of_succ_le (ih (k + 1) e h')

/-- The rows are produced with strictly increasing indices. -/
theorem scoreRows_pairwise {f : List String} :
    ∀ (sents : List String) (k : Nat),
      (scoreRows f k sents).Pairwise (fun a b => a.2.1 < b.2.1) := by
  intro sents
  induction sents with
  | nil => intro k; simp [scoreRows]
  | cons s rest ih =>
    intro k
    rw [scoreRows, List.pairwise_cons]
    refine ⟨?_, ih (k + 1)⟩
    intro e he
    exact Nat.lt_of_succ_le (scoreRows_mem_ge rest (k + 1) e he)

/-- A row of a non-empty sentence list is the head row or a tail row. -/
theorem scoreRows_mem_cases {f : List String} {s : String} {rest : List String}
    {k : Nat} {e : Nat × Nat × String} (h : e ∈ scoreRows f k (s :: rest)) :
    e = (sentenceScore f s, k, s) ∨ e ∈ scoreRows f (k + 1) rest := by
  rw [scoreRows] at h
  exact List.mem_cons.mp h

/-- There are as many rows as sentences. -/
theorem scoreRows_length {f : List String} :
    ∀ (sents : List String) (k : Nat), (scoreRows f k sents).length = sents.length := by
  intro sents
  induction sents with
  | nil => intro k; rfl
  | cons s rest ih =>
    intro k
    rw [scoreRows, List.length_cons, ih (k + 1), List.length_cons]

/-- A list of rows with strictly increasing indices, each a row of
`scoreRows f k sents`, projects to a sublist of `sents` (document
order). -/
theorem rows_map_sublist {f : List String} :
    ∀ (sents : List String) (k : Nat) (l : List (Nat × Nat × String)),
      (∀ e ∈ l, e ∈ scoreRows f k sents) →
      l.Pairwise (fun a b => a.2.1 < b.2.1) →
      (l.map (fun r => r.2.2)).Sublist sents := by
  intro sents
  induction sents with
  | nil =>
    intro k l hall _
    cases l with
    | nil => simp
    | cons e l' =>
      have := hall e (List.mem_cons_self e l')
      simp [scoreRows] at this
  | cons s rest ih =>
    intro k l hall hpw
    cases l with
    | nil => simp
    | cons e l' =>
      obtain ⟨hehd, hptl⟩ := List.pairwise_cons.mp hpw
      rcases scoreRows_mem_cases (hall e (List.mem_cons_self e l')) with he | he
      · have hl' : ∀ y ∈ l', y ∈ scoreRows f (k + 1) rest := by
          intro y hy
          rcases scoreRows_mem_cases (hall y (List.mem_cons_of_mem e hy)) with hy' | hy'
          · exfalso
            have hlt := hehd y hy
            rw [he, hy'] at hlt
            exact Nat.lt_irrefl k hlt
          · exact hy'
        rw [List.map_cons]
        have : e.2.2 = s := by rw [he]
        rw [this]
        exact List.Sublist.cons₂ s (ih (k + 1) l' hl' hptl)
      · have hall' : ∀ y ∈ e :: l', y ∈ scoreRows f (k + 1) rest := by
          intro y hy
          rcases List.mem_cons.mp hy with hy' | hy'
          · rw [hy']; exact he
          · rcases scoreRows_mem_cases (hall y (List.mem_cons_of_mem e hy')) with hy'' | hy'' 
            · exfalso
              have hke := scoreRows_mem_ge rest (k + 1) e he
              have hlt := hehd y hy'
              rw [hy''] at hlt
              simp only [] at hlt
              omega
            · exact hy''
        exact List.Sublist.cons s (ih (k + 1) (e :: l') hall' hpw)

/-- A Python slice `xs[:k]` is a prefix: some `take`. -/
theorem pySliceTo_eq_take {α : Type} (k : Int) (l : List α) :
    ∃ n, pySliceTo k l = l.take n := by
  rw [pySliceTo]
  by_cases h : k < 0
  · rw [if_pos h]; exact ⟨_, rfl⟩
  · rw [if_neg h]; exact ⟨_, rfl⟩

/-- For a nonnegative bound the slice takes at most `k` elements. -/
theorem pySliceTo_length_le {α : Type} {k : Int} (hk : 0 ≤ k) (l : List α) :
    ((pySliceTo k l).length : Int) ≤ k := by
  rw [pySliceTo, if_neg (by omega)]
  have h1 : (l.take k.toNat).length ≤ k.toNat := by
    rw [List.length_take]
    exact Nat.min_le_left _ _
  have h2 : ((l.take k.toNat).length : Int) ≤ (k.toNat : Int) := Int.ofNat_le.mpr h1
  rwa [Int.toNat_of_nonneg hk] at h2

/-! ## C2 -/

/-- C2: the descending sort of the `(score, idx, text)` rows is stable on
equal scores — among equal-scoring rows, the one with the lower original
index comes first — and the selection (a slice, hence a prefix of the
sorted list) therefore prefers lower original indices among equal
scores: if the later row is selected, so is the earlier one. -/
theorem summarize_selection_stable (s : String) (n : Int) :
    (sortDesc (fun r => r.1) (scoreRows (sumFiltered s) 0 (split_sentences s))).Pairwise
      (fun a b => a.1 = b.1 → a.2.1 < b.2.1) ∧
    (∀ a b : Nat × Nat × String,
      a ∈ scoreRows (sumFiltered s) 0 (split_sentences s) →
      b ∈ scoreRows (sumFiltered s) 0 (split_sentences s) →
      a.1 = b.1 → a.2.1 < b.2.1 →
      b ∈ pySliceTo (min n ((scoreRows (sumFiltered s) 0 (split_sentences s)).length : Int))
        (sortDesc (fun r => r.1) (scoreRows (sumFiltered s) 0 (split_sentences s))) →
      a ∈ pySliceTo (min n ((scoreRows (sumFiltered s) 0 (split_sentences s)).length : Int))
        (sortDesc (fun r => r.1) (scoreRows (sumFiltered s) 0 (split_sentences s)))) := by
  have hpw := sortDesc_pairwise (fun r : Nat × Nat × String => r.1) (fun r => r.2.1)
    (scoreRows (sumFiltered s) 0 (split_sentences s))
    (scoreRows_pairwise (split_sentences s) 0)
  constructor
  · exact hpw.imp (fun h => h.2)
  · intro a b ha _hb heq hlt htop
    obtain ⟨m, hm⟩ := pySliceTo_eq_take
      (min n ((scoreRows (sumFiltered s) 0 (split_sentences s)).length : Int))
      (sortDesc (fun r => r.1) (scoreRows (sumFiltered s) 0 (split_sentences s)))
    rw [hm] at htop ⊢
    by_contra hnot
    have haL : a ∈ sortDesc (fun r => r.1) (scoreRows (sumFiltered s) 0 (split_sentences s)) :=
      (sortDesc_perm (fun r => r.1) _).mem_iff.mpr ha
    have haL2 : a ∈ (sortDesc (fun r => r.1)
          (scoreRows (sumFiltered s) 0 (split_sentences s))).take m ++
        (sortDesc (fun r => r.1)
          (scoreRows (sumFiltered s) 0 (split_sentences s))).drop m := by
      rw [List.take_append_drop]
      exact haL
    have hadrop : a ∈ (sortDesc (fun r => r.1)
        (scoreRows (sumFiltered s) 0 (split_sentences s))).drop m := by
      rcases List.mem_append.mp haL2 with h | h
      · exact absurd h hnot
      · exact h
    have hsplit := (List.take_append_drop m (sortDesc (fun r => r.1)
      (scoreRows (sumFiltered s) 0 (split_sentences s)))).symm
    rw [hsplit] at hpw
    have hba := (List.pairwise_append.mp hpw).2.2 b htop a hadrop
    exact Nat.lt_asymm hlt (hba.2 heq.symm)

/-- Witness for C2: two identical sentences score equally (10 each); with
`targetCount = 2` the later one is selected, so the stability theorem
places the earlier one in the selection too. -/
theorem summarize_selection_stable_witness :
    (10, 0, "Red apple banana cherry fruits.") ∈
      pySliceTo (min 2 ((scoreRows
          (sumFiltered "Red apple banana cherry fruits. Red apple banana cherry fruits.") 0
          (split_sentences "Red apple banana cherry fruits. Red apple banana cherry fruits.")).length : Int))
        (sortDesc (fun r => r.1) (scoreRows
          (sumFiltered "Red apple banana cherry fruits. Red apple banana cherry fruits.") 0
          (split_sentences "Red apple banana cherry fruits. Red apple banana cherry fruits."))) :=
  (summarize_selection_stable "Red apple banana cherry fruits. Red apple banana cherry fruits." 2).2
    (10, 0, "Red apple banana cherry fruits.") (10, 1, "Red apple banana cherry fruits.")
    (by decide) (by decide) rfl (by decide) (by decide)

/-! ## C1 (corrected) -/

/-- C1 (amended): for every text and every `targetCount ≥ 0`,
`summarize_text` returns one of the two fixed fallback messages or a
selection of at most `targetCount` segmented sentences, in original
document order (a sublist of `split_sentences`), joined by single
spaces. -/
theorem summarize_text_bounded (s : String) (n : Int) (hn : 0 ≤ n) :
    summarize_text s n = noTextMsg ∨ summarize_text s n = tooLimitedMsg ∨
    ∃ sel : List String, sel.Sublist (split_sentences s) ∧
      (sel.length : Int) ≤ n ∧ summarize_text s n = String.intercalate " " sel := by
  by_cases h1 : split_sentences s = []
  · left
    rw [summarize_text, if_pos (by simp [h1])]
  by_cases h2 : sumFiltered s = []
  · right; left
    rw [summarize_text, if_neg (by simp [h1]), if_pos (by simp [h2])]
  right; right
  refine ⟨(sortAsc (fun r => r.2.1)
      (pySliceTo (min n ((scoreRows (sumFiltered s) 0 (split_sentences s)).length : Int))
        (sortDesc (fun r => r.1)
          (scoreRows (sumFiltered s) 0 (split_sentences s))))).map (fun r => r.2.2),
    ?_, ?_, ?_⟩
  · obtain ⟨m, hm⟩ := pySliceTo_eq_take
      (min n ((scoreRows (sumFiltered s) 0 (split_sentences s)).length : Int))
      (sortDesc (fun r => r.1) (scoreRows (sumFiltered s) 0 (split_sentences s)))
    apply rows_map_sublist (split_sentences s) 0
    · intro e he
      have he1 := (sortAsc_perm (fun r : Nat × Nat × String => r.2.1) _).mem_iff.mp he
      rw [hm] at he1
      have he2 := (List.take_sublist m _).subset he1
      exact (sortDesc_perm (fun r : Nat × Nat × String => r.1) _).mem_iff.mp he2
    · have hle := sortAsc_pairwise (fun r : Nat × Nat × String => r.2.1)
        (pySliceTo (min n ((scoreRows (sumFiltered s) 0 (split_sentences s)).length : Int))
          (sortDesc (fun r => r.1) (scoreRows (sumFiltered s) 0 (split_sentences s))))
      have hnd0 : (List.map (fun r : Nat × Nat × String => r.2.1)
          (scoreRows (sumFiltered s) 0 (split_sentences s))).Nodup := by
        have hpw := scoreRows_pairwise (f := sumFiltered s) (split_sentences s) 0
        have hmaplt : (List.map (fun r : Nat × Nat × String => r.2.1)
            (scoreRows (sumFiltered s) 0 (split_sentences s))).Pairwise (· < ·) :=
          List.pairwise_map.mpr hpw
        exact hmaplt.imp (fun h => Nat.ne_of_lt h)
      have hnd1 : (List.map (fun r : Nat × Nat × String => r.2.1)
          (sortDesc (fun r => r.1)
            (scoreRows (sumFiltered s) 0 (split_sentences s)))).Nodup :=
        (((sortDesc_perm (fun r : Nat × Nat × String => r.1) _).map
          (fun r => r.2.1)).nodup_iff).mpr hnd0
      have hnd2 : (List.map (fun r : Nat × Nat × String => r.2.1)
          (pySliceTo (min n ((scoreRows (sumFiltered s) 0 (split_sentences s)).length : Int))
            (sortDesc (fun r => r.1)
              (scoreRows (sumFiltered s) 0 (split_sentences s))))).Nodup := by
        rw [hm]
        exact List.Nodup.sublist
          ((List.take_sublist m _).map (fun r : Nat × Nat × String => r.2.1)) hnd1
      have hnd3 : (List.map (fun r : Nat × Nat × String => r.2.1)
          (sortAsc (fun r => r.2.1)
            (pySliceTo (min n ((scoreRows (sumFiltered s) 0 (split_sentences s)).length : Int))
              (sortDesc (fun r => r.1)
                (scoreRows (sumFiltered s) 0 (split_sentences s)))))).Nodup :=
        (((sortAsc_perm (fun r : Nat × Nat × String => r.2.1) _).map
          (fun r => r.2.1)).nodup_iff).mpr hnd2
      have hne : (sortAsc (fun r : Nat × Nat × String => r.2.1)
          (pySliceTo (min n ((scoreRows (sumFiltered s) 0 (split_sentences s)).length : Int))
            (sortDesc (fun r => r.1)
              (scoreRows (sumFiltered s) 0 (split_sentences s))))).Pairwise
          (fun a b => a.2.1 ≠ b.2.1) := List.pairwise_map.mp hnd3
      exact (hle.and hne).imp (fun h => Nat.lt_of_le_of_ne h.1 h.2)
  · rw [List.length_map]
    rw [(sortAsc_perm (fun r : Nat × Nat × String => r.2.1) _).length_eq]
    have h0 : 0 ≤ min n ((scoreRows (sumFiltered s) 0 (split_sentences s)).length : Int) :=
      le_min hn (Int.ofNat_nonneg _)
    calc ((pySliceTo (min n ((scoreRows (sumFiltered s) 0 (split_sentences s)).length : Int))
          (sortDesc (fun r => r.1)
            (scoreRows (sumFiltered s) 0 (split_sentences s)))).length : Int)
        ≤ min n ((scoreRows (sumFiltered s) 0 (split_sentences s)).length : Int) :=
          pySliceTo_length_le h0 _
      _ ≤ n := min_le_left _ _
  · rw [summarize_text, if_neg (by simp [h1]), if_neg (by simp [h2])]

/-- Witness for C1 (amended) at the spec's end-to-end example text with
`targetCount = 2`. -/
theorem summarize_text_bounded_witness :
    summarize_text "The quick brown fox jumps over the lazy dog. The dog barked loudly at the fox near the river. Foxes are clever animals known for agility." 2 = noTextMsg ∨
    summarize_text "The quick brown fox jumps over the lazy dog. The dog barked loudly at the fox near the river. Foxes are clever animals known for agility." 2 = tooLimitedMsg ∨
    ∃ sel : List String,
      sel.Sublist (split_sentences "The quick brown fox jumps over the lazy dog. The dog barked loudly at the fox near the river. Foxes are clever animals known for agility.") ∧
      (sel.length : Int) ≤ 2 ∧
      summarize_text "The quick brown fox jumps over the lazy dog. The dog barked loudly at the fox near the river. Foxes are clever animals known for agility." 2 =
        String.intercalate " " sel :=
  summarize_text_bounded
    "The quick brown fox jumps over the lazy dog. The dog barked loudly at the fox near the river. Foxes are clever animals known for agility."
    2 (by decide)

/-- Counterexample to C1 as stated ("for every targetCount"): with the
Python slice semantics a negative `targetCount` still returns sentences
(here one of the two), which cannot be "at most `targetCount`" many; and
on a degenerate text the result is a fallback message, not a join of
selected sentences. -/
theorem summarize_text_counterexample :
    summarize_text "Alpha beta gamma delta epsilon zeta. Eta theta iota kappa lambda mu." (-1) =
      "Alpha beta gamma delta epsilon zeta." ∧
    (¬∃ sel : List String,
      sel.Sublist (split_sentences
        "Alpha beta gamma delta epsilon zeta. Eta theta iota kappa lambda mu.") ∧
      (sel.length : Int) ≤ -1 ∧
      summarize_text "Alpha beta gamma delta epsilon zeta. Eta theta iota kappa lambda mu." (-1) =
        String.intercalate " " sel) ∧
    summarize_text "" 6 = noTextMsg ∧
    (¬∃ sel : List String, sel.Sublist (split_sentences "") ∧ (sel.length : Int) ≤ 6 ∧
      summarize_text "" 6 = String.intercalate " " sel) := by
  refine ⟨by decide, ?_, by decide, ?_⟩
  · rintro ⟨sel, _, hlen, _⟩
    have := Int.ofNat_nonneg sel.length
    omega
  · rintro ⟨sel, hsub, _, heq⟩
    have h0 : split_sentences "" = [] := by decide
    rw [h0] at hsub
    have hnil : sel = [] := List.sublist_nil.mp hsub
    rw [hnil] at heq
    have hne : summarize_text "" 6 ≠ String.intercalate " " ([] : List String) := by decide
    exact hne heq
